import Mathlib

/-!
Shallow embedding of the expression evaluator of `src/app.js`
(tokenize / toRpn / evalRpn / evaluate), with the error taxonomy of the
spec.  Numbers are modelled as `FVal`: a finite IEEE float64 is carried
as an exact rational payload (`FVal.fin q`), and every non-finite
float64 value (NaN, +Infinity, -Infinity) is collapsed into `FVal.nonfin`.
Arithmetic on finite payloads is exact rational arithmetic, except that a
result whose magnitude reaches the float64 overflow threshold becomes
`nonfin`, mirroring overflow to infinity; rounding of in-range results is
not modelled (every concrete input used below computes exactly in
float64 as well).  IEEE negative zero is identified with zero, matching
the `===` comparison the code performs (`-0 === 0` is true in JS).
-/

set_option maxRecDepth 40000

set_option exponentiation.threshold 1100

set_option allowUnsafeReducibility true

attribute [semireducible] Rat.add Rat.sub Rat.mul Rat.div Rat.inv

deriving instance DecidableEq for Except

namespace Calc

/-- A float64 magnitude at or beyond this bound rounds to infinity under
round-to-nearest-even (the midpoint between the largest finite double
`2^1024 - 2^971` and `2^1024`). -/
def overflowThresholdN : ℕ := 2 ^ 1024 - 2 ^ 970

/-- Model of a JS number: a finite value with exact rational payload, or
a non-finite value (NaN / ±Infinity, not distinguished). -/
inductive FVal where
  | fin (q : ℚ)
  | nonfin
deriving DecidableEq, Repr

/-- `Number.isFinite` on the model. -/
def FVal.isFinite : FVal → Bool
  | .fin _ => true
  | .nonfin => false

/-- Build a float64 from an exact rational result: overflow to infinity
when the magnitude reaches the threshold.  The test
`overflowThresholdN * q.den ≤ |q.num|` states `overflowThresholdN ≤ |q|`
on the reduced numerator and (positive) denominator, keeping the
comparison in `Nat` arithmetic. -/
def mkFloat (q : ℚ) : FVal :=
  if overflowThresholdN * q.den ≤ q.num.natAbs then .nonfin else .fin q

/-- `a + b` on JS numbers (any non-finite operand gives a non-finite result). -/
def FVal.add : FVal → FVal → FVal
  | .fin a, .fin b => mkFloat (a + b)
  | _, _ => .nonfin

/-- `a - b` on JS numbers. -/
def FVal.sub : FVal → FVal → FVal
  | .fin a, .fin b => mkFloat (a - b)
  | _, _ => .nonfin

/-- `a * b` on JS numbers (0 * Infinity is NaN, still non-finite). -/
def FVal.mul : FVal → FVal → FVal
  | .fin a, .fin b => mkFloat (a * b)
  | _, _ => .nonfin

/-- `a / b` on JS numbers: division by zero gives ±Infinity or NaN,
all collapsed to `nonfin`. -/
def FVal.div : FVal → FVal → FVal
  | .fin a, .fin b => if b = 0 then .nonfin else mkFloat (a / b)
  | _, _ => .nonfin

/-- `-a`: negation of a finite double is finite (same magnitude);
negation of NaN/±Infinity is non-finite. -/
def FVal.neg : FVal → FVal
  | .fin a => .fin (-a)
  | .nonfin => .nonfin

/-- `+a`: the identity on numbers. -/
def FVal.pos : FVal → FVal := id

/-- The `b === 0` test of the division guard: true exactly for finite
zero (IEEE `-0 === 0` holds, `NaN === 0` and `Infinity === 0` do not). -/
def FVal.eqZero : FVal → Bool
  | .fin q => q = 0
  | .nonfin => false

/-- The error taxonomy (§7 of the spec); each case corresponds to one
`throw new Error(...)` site in `src/app.js`. -/
inductive Err where
  | InvalidNumber
  | NumberTooLarge
  | UnexpectedCharacter (c : Char)
  | MismatchedParentheses
  | InvalidExpression
  | DivisionByZero
  | ResultNotFinite
  | UnknownOperator
  | InvalidToken
deriving DecidableEq, Repr

/-- Operator symbols: the four raw symbols produced by the tokenizer plus
the two unary kinds `"u+"` / `"u-"` introduced by the converter. -/
inductive OpSym where
  | plus
  | minus
  | times
  | divide
  | uplus
  | uminus
deriving DecidableEq, Repr

/-- The `prec` table of `toRpn`. -/
def prec : OpSym → Nat
  | .uplus => 3
  | .uminus => 3
  | .times => 2
  | .divide => 2
  | .plus => 1
  | .minus => 1

/-- The `rightAssoc` set of `toRpn`. -/
def rightAssoc : OpSym → Bool
  | .uplus => true
  | .uminus => true
  | _ => false

/-- Tokens: `{type:"num"}`, `{type:"op"}`, `{type:"("}`, `{type:")"}`. -/
inductive Token where
  | num (v : FVal)
  | op (s : OpSym)
  | lparen
  | rparen
deriving DecidableEq, Repr

/-- `isOperator` of `src/app.js`. -/
def isOperator (c : Char) : Bool :=
  c == '+' || c == '-' || c == '*' || c == '/'

/-- A character matched by the JS regex `\s` (whitespace). -/
def isJsWs (c : Char) : Bool :=
  (0x9 ≤ c.toNat && c.toNat ≤ 0xd) || c == ' ' || c == ' ' ||
  c == ' ' || (0x2000 ≤ c.toNat && c.toNat ≤ 0x200a) ||
  c == ' ' || c == ' ' || c == ' ' || c == ' ' ||
  c == '　' || c == '﻿'

/-- A character of a numeric run: the JS regex `[\d.]`. -/
def isNumChar (c : Char) : Bool :=
  c.isDigit || c == '.'

/-- The validation regex `^\d*\.?\d+$` applied to a numeric run:
leading digits, then either nothing (requiring the run nonempty) or a
single `.` followed by at least one digit and nothing else. -/
def validNumRun (l : List Char) : Bool :=
  match l.dropWhile Char.isDigit with
  | [] => !l.isEmpty
  | '.' :: ds => !ds.isEmpty && ds.all Char.isDigit
  | _ => false

/-- Numeric value of a list of decimal digits. -/
def natOfDigits (l : List Char) : ℕ :=
  l.foldl (fun n c => 10 * n + (c.toNat - 48)) 0

/-- Exact value denoted by a numeric run `digits [ "." digits ]`:
all digits over `10 ^ (number of fractional digits)`. -/
def runValue (l : List Char) : ℚ :=
  match l.dropWhile Char.isDigit with
  | '.' :: frac =>
      mkRat (natOfDigits (l.takeWhile Char.isDigit ++ frac)) (10 ^ frac.length)
  | _ => mkRat (natOfDigits (l.takeWhile Char.isDigit)) 1

/-- `Number(raw)` for a validated numeric run: the denoted value, turned
into a float64 (a huge literal overflows to `Infinity`). -/
def numValue (l : List Char) : FVal :=
  mkFloat (runValue l)

/-- `dropWhile` never lengthens a list (fuel bound for the scan). -/
theorem length_dropWhile_le {α : Type} (p : α → Bool) :
    ∀ l : List α, (l.dropWhile p).length ≤ l.length := by
  intro l
  induction l with
  | nil => simp [List.dropWhile]
  | cons a t ih =>
    simp only [List.dropWhile]
    cases p a
    · simp
    · simpa using Nat.le_succ_of_le ih

/-- Raw operator symbol of one of `+ - * /`. -/
def opOfChar (c : Char) : OpSym :=
  if c == '+' then .plus
  else if c == '-' then .minus
  else if c == '*' then .times
  else .divide

/-- The scanning loop of `tokenize`, on the whitespace-stripped character
list.  A numeric run is the maximal prefix of `[\d.]` characters; it is
validated, converted, and checked finite.  `fuel` only forces structural
recursion: every step consumes at least one character, so with
`fuel ≥ l.length` (as `tokenize` supplies) the out-of-fuel case is
unreachable. -/
def tokenizeAux : Nat → List Char → Except Err (List Token)
  | _, [] => .ok []
  | 0, _ :: _ => .error .InvalidToken
  | fuel + 1, ch :: rest =>
    if isNumChar ch then
      let run := ch :: rest.takeWhile isNumChar
      if !validNumRun run then .error .InvalidNumber
      else
        let n := numValue run
        if !n.isFinite then .error .NumberTooLarge
        else
          match tokenizeAux fuel (rest.dropWhile isNumChar) with
          | .error e => .error e
          | .ok ts => .ok (.num n :: ts)
    else if ch == '(' then
      match tokenizeAux fuel rest with
      | .error e => .error e
      | .ok ts => .ok (.lparen :: ts)
    else if ch == ')' then
      match tokenizeAux fuel rest with
      | .error e => .error e
      | .ok ts => .ok (.rparen :: ts)
    else if isOperator ch then
      match tokenizeAux fuel rest with
      | .error e => .error e
      | .ok ts => .ok (.op (opOfChar ch) :: ts)
    else .error (.UnexpectedCharacter ch)

/-- `tokenize`: strip whitespace (`input.replace(/\s+/g, "")`), then scan. -/
def tokenize (s : String) : Except Err (List Token) :=
  let l := s.data.filter (fun c => !isJsWs c)
  tokenizeAux l.length l

/-- The `while` loop of `pushOp`: pop stack operators to the output while
the top is an operator `b` with
`(rightAssoc a ∧ prec a < prec b) ∨ (¬rightAssoc a ∧ prec a ≤ prec b)`.
Returns the updated `(out, ops)`. -/
def pushOpAux (a : OpSym) : List Token → List Token → List Token × List Token
  | out, .op b :: restOps =>
    if (rightAssoc a && decide (prec a < prec b)) ||
       (!rightAssoc a && decide (prec a ≤ prec b)) then
      pushOpAux a (out ++ [.op b]) restOps
    else (out, .op b :: restOps)
  | out, ops => (out, ops)

/-- `pushOp`: run the pop loop, then push the incoming operator. -/
def pushOp (a : OpSym) (out ops : List Token) : List Token × List Token :=
  let (o, p) := pushOpAux a out ops
  (o, .op a :: p)

/-- The `)` branch of `toRpn`: pop operators to the output until a `(`
is found (and discarded); fail if the stack empties first. -/
def popUntilLParen : List Token → List Token → Except Err (List Token × List Token)
  | _, [] => .error .MismatchedParentheses
  | out, .lparen :: restOps => .ok (out, restOps)
  | out, t :: restOps => popUntilLParen (out ++ [t]) restOps

/-- The end-of-input drain of `toRpn`: pop all remaining stack entries to
the output; a remaining `(` is a mismatched parenthesis. -/
def drain : List Token → List Token → Except Err (List Token)
  | out, [] => .ok out
  | _, .lparen :: _ => .error .MismatchedParentheses
  | out, t :: restOps => drain (out ++ [t]) restOps

/-- Unary context test of `toRpn`:
`!prev || prev.type === "op" || prev.type === "("`. -/
def unaryCtx : Option Token → Bool
  | none => true
  | some (.op _) => true
  | some .lparen => true
  | _ => false

/-- The token loop of `toRpn`; `prev` is the previous *input* token
(`tokens[idx - 1]`), `out` the output sequence, `ops` the operator
stack. -/
def toRpnAux : List Token → Option Token → List Token → List Token →
    Except Err (List Token)
  | [], _, out, ops => drain out ops
  | t :: rest, prev, out, ops =>
    match t with
    | .num _ => toRpnAux rest (some t) (out ++ [t]) ops
    | .lparen => toRpnAux rest (some t) out (t :: ops)
    | .rparen =>
      match popUntilLParen out ops with
      | .error e => .error e
      | .ok (o, p) => toRpnAux rest (some t) o p
    | .op v =>
      if unaryCtx prev && (v == .plus || v == .minus) then
        let (o, p) := pushOp (if v == .plus then .uplus else .uminus) out ops
        toRpnAux rest (some t) o p
      else
        let (o, p) := pushOp v out ops
        toRpnAux rest (some t) o p

/-- `toRpn`: shunting-yard conversion from infix to postfix. -/
def toRpn (tokens : List Token) : Except Err (List Token) :=
  toRpnAux tokens none [] []

/-- The `switch (t.value)` of `evalRpn` for a binary operator, applied to
left operand `a` and right operand `b`; the division-by-zero guard runs
before the division. -/
def applyBin (s : OpSym) (a b : FVal) : Except Err FVal :=
  match s with
  | .plus => .ok (a.add b)
  | .minus => .ok (a.sub b)
  | .times => .ok (a.mul b)
  | .divide =>
    if b.eqZero then .error .DivisionByZero else .ok (a.div b)
  | _ => .error .UnknownOperator

/-- The token loop of `evalRpn` over the operand stack `st` (head = top).
A binary result must pass the `Number.isFinite` check before being
pushed; the unary branch pushes `-a` / `+a` without such a check. -/
def evalRpnAux : List Token → List FVal → Except Err FVal
  | [], st =>
    match st with
    | [v] => .ok v
    | _ => .error .InvalidExpression
  | .num v :: rest, st => evalRpnAux rest (v :: st)
  | .op s :: rest, st =>
    if s == .uplus || s == .uminus then
      match st with
      | [] => .error .InvalidExpression
      | a :: st' =>
        evalRpnAux rest ((if s == .uminus then a.neg else a.pos) :: st')
    else
      match st with
      | b :: a :: st' =>
        match applyBin s a b with
        | .error e => .error e
        | .ok v =>
          if !v.isFinite then .error .ResultNotFinite
          else evalRpnAux rest (v :: st')
      | _ => .error .InvalidExpression
  | .lparen :: _, _ => .error .InvalidToken
  | .rparen :: _, _ => .error .InvalidToken

/-- `evalRpn`: postfix evaluation starting from an empty stack. -/
def evalRpn (rpn : List Token) : Except Err FVal :=
  evalRpnAux rpn []

/-- `evaluate`: the pipeline entry point.  An empty token sequence
returns 0 directly (`if (!tokens.length) return 0`). -/
def evaluate (s : String) : Except Err FVal :=
  match tokenize s with
  | .error e => .error e
  | .ok tokens =>
    if tokens.isEmpty then .ok (.fin 0)
    else
      match toRpn tokens with
      | .error e => .error e
      | .ok rpn => evalRpn rpn

/-- The last character of a list is a decimal digit. -/
def endsWithDigit (l : List Char) : Bool :=
  match l.getLast? with
  | some c => c.isDigit
  | none => false

/-- Every `num` token of a token sequence holds a finite value. -/
def numsFinite (l : List Token) : Prop :=
  ∀ v : FVal, Token.num v ∈ l → v.isFinite = true

/-- The head of `dropWhile p l` fails `p`. -/
theorem dropWhile_head_false {p : Char → Bool} :
    ∀ {l t : List Char} {c : Char}, l.dropWhile p = c :: t → p c = false := by
  intro l
  induction l with
  | nil => intro t c h; simp [List.dropWhile] at h
  | cons a l ih =>
    intro t c h
    rw [List.dropWhile_cons] at h
    by_cases hp : p a
    · rw [if_pos hp] at h
      exact ih h
    · rw [if_neg hp] at h
      injection h with h1 _
      subst h1
      exact Bool.eq_false_iff.mpr hp

/-- On a run of digit/dot characters, the validation regex
`^\d*\.?\d+$` accepts exactly the runs with at most one `.` whose last
character is a digit. -/
theorem validNumRun_charact (l : List Char)
    (h : ∀ c ∈ l, c.isDigit = true ∨ c = '.') :
    validNumRun l = (decide (l.count '.' ≤ 1) && endsWithDigit l) := by
  have hsplit := List.takeWhile_append_dropWhile Char.isDigit l
  have hd1 : ∀ c ∈ l.takeWhile Char.isDigit, c.isDigit = true :=
    fun c hc => List.mem_takeWhile_imp hc
  have hdotcount : (l.takeWhile Char.isDigit).count '.' = 0 := by
    apply List.count_eq_zero.mpr
    intro hmem
    have := hd1 '.' hmem
    simp [Char.isDigit] at this
  unfold validNumRun
  cases hrest : l.dropWhile Char.isDigit with
  | nil =>
    have hl : l.takeWhile Char.isDigit = l := by
      rw [hrest] at hsplit; simpa using hsplit
    have hcount : l.count '.' = 0 := by rw [← hl]; exact hdotcount
    have hall : ∀ c ∈ l, c.isDigit = true := by rw [← hl]; exact hd1
    cases l with
    | nil => simp [endsWithDigit]
    | cons a t =>
      have hne : a :: t ≠ [] := by simp
      have hlast : (a :: t).getLast? = some ((a :: t).getLast hne) :=
        List.getLast?_eq_getLast _ hne
      simp [endsWithDigit, hlast, hall _ (List.getLast_mem hne), hcount]
  | cons c ds =>
    have hc : Char.isDigit c = false := dropWhile_head_false hrest
    have hcmem : c ∈ l := by
      rw [← hsplit, hrest]
      exact List.mem_append_right _ (List.mem_cons_self _ _)
    have hcdot : c = '.' := by
      rcases h c hcmem with hd | hd
      · rw [hd] at hc; cases hc
      · exact hd
    subst hcdot
    have hlform : l = l.takeWhile Char.isDigit ++ '.' :: ds := by
      rw [← hrest, hsplit]
    by_cases hall : ds.all Char.isDigit = true
    · cases hds : ds with
      | nil =>
        subst hds
        have hlast : l.getLast? = some '.' := by
          rw [hlform]
          rw [List.getLast?_append_of_ne_nil _ (by simp)]
          simp
        simp [endsWithDigit, hlast, Char.isDigit]
      | cons d ds' =>
        subst hds
        have hcount : l.count '.' = 1 := by
          rw [hlform, List.count_append]
          have hds0 : (d :: ds').count '.' = 0 := by
            apply List.count_eq_zero.mpr
            intro hmem
            have := (List.all_eq_true.mp hall) '.' hmem
            simp [Char.isDigit] at this
          simp [hdotcount, List.count_cons, hds0]
        have hne : d :: ds' ≠ [] := by simp
        have hlast : l.getLast? = some ((d :: ds').getLast hne) := by
          rw [hlform]
          rw [List.getLast?_append_of_ne_nil _ (by simp)]
          rw [List.getLast?_cons_cons]
          exact List.getLast?_eq_getLast _ hne
        have hdig : ((d :: ds').getLast hne).isDigit = true :=
          (List.all_eq_true.mp hall) _ (List.getLast_mem hne)
        simp [endsWithDigit, hlast, hdig, hcount, hall]
    · have hx : ∃ x ∈ ds, ¬x.isDigit = true := by
        by_contra hcon
        push_neg at hcon
        exact hall (List.all_eq_true.mpr hcon)
      obtain ⟨x, hxds, hxnd⟩ := hx
      have hxl : x ∈ l := by
        rw [hlform]
        exact List.mem_append_right _ (List.mem_cons_of_mem _ hxds)
      have hxdot : x = '.' := by
        rcases h x hxl with hd | hd
        · exact absurd hd hxnd
        · exact hd
      subst hxdot
      have hcount2 : 2 ≤ l.count '.' := by
        rw [hlform, List.count_append, List.count_cons]
        have hpos : 0 < ds.count '.' := List.count_pos_iff.mpr hxds
        simp only [hdotcount, beq_self_eq_true, if_true]
        omega
      have hdec : decide (l.count '.' ≤ 1) = false := by
        simp
        omega
      rw [hdec]
      simp [hall]

/-- C1 (counterexample): the run `"5."` contains one digit and one
decimal point, yet the validation rejects it and `tokenize` fails with
`InvalidNumber` — refuting "accepted iff at least one digit and at most
one decimal point". -/
theorem C1_counterexample :
    tokenize "5." = .error .InvalidNumber ∧
    ("5.".data.filter Char.isDigit).length = 1 ∧
    "5.".data.count '.' = 1 ∧
    validNumRun "5.".data = false :=
  ⟨by decide, by decide, by decide, by decide⟩

/-- C1 (amended): a maximal digit/'.' run passes the tokenizer's
numeric-literal validation iff it contains at most one decimal point and
its last character is a digit (hence at least one digit); a violating
run — a lone `.`, or a trailing-dot run such as `"5."` — makes
`tokenize` fail with `InvalidNumber`. -/
theorem C1_amended_run_validation :
    (∀ l : List Char, (∀ c ∈ l, c.isDigit = true ∨ c = '.') →
      validNumRun l = (decide (l.count '.' ≤ 1) && endsWithDigit l)) ∧
    tokenize "." = .error .InvalidNumber ∧
    tokenize "5." = .error .InvalidNumber :=
  ⟨validNumRun_charact, by decide, by decide⟩

/-- Witness for C1: the amended characterization evaluated on the
concrete run `"1.5"`. -/
theorem C1_witness :
    validNumRun ['1', '.', '5'] =
      (decide ((['1', '.', '5'] : List Char).count '.' ≤ 1) &&
        endsWithDigit ['1', '.', '5']) :=
  C1_amended_run_validation.1 ['1', '.', '5'] (by decide)

/-- C2: binary precedence and left-associativity:
`evaluate "2+3*4" = 14`, `evaluate "(2+3)*4" = 20`, and
`evaluate "10-2-3" = 5` (not 11). -/
theorem C2_precedence_associativity :
    evaluate "2+3*4" = .ok (.fin 14) ∧
    evaluate "(2+3)*4" = .ok (.fin 20) ∧
    evaluate "10-2-3" = .ok (.fin 5) :=
  ⟨by decide, by decide, by decide⟩

/-- C3: a `+`/`-` token is classified unary exactly when it is the first
token or the previous input token is an operator or `(`; the unary
operators have precedence 3, above every binary operator, and are the
only right-associative ones; consequently `evaluate "-(3+4)" = -7`,
`evaluate "3*-2" = -6`, and `evaluate "--5" = 5`. -/
theorem C3_unary_classification :
    (∀ p : Option Token, unaryCtx p = true ↔
      (p = none ∨ (∃ s, p = some (Token.op s)) ∨ p = some Token.lparen)) ∧
    prec .uplus = 3 ∧ prec .uminus = 3 ∧
    rightAssoc .uplus = true ∧ rightAssoc .uminus = true ∧
    (∀ s : OpSym, s = .uplus ∨ s = .uminus ∨
      (prec s < prec .uplus ∧ prec s < prec .uminus ∧ rightAssoc s = false)) ∧
    evaluate "-(3+4)" = .ok (.fin (-7)) ∧
    evaluate "3*-2" = .ok (.fin (-6)) ∧
    evaluate "--5" = .ok (.fin 5) := by
  refine ⟨?_, rfl, rfl, rfl, rfl, ?_, by decide, by decide, by decide⟩
  · intro p
    match p with
    | none => simp [unaryCtx]
    | some (.num v) => simp [unaryCtx]
    | some (.op s) => simp [unaryCtx]
    | some .lparen => simp [unaryCtx]
    | some .rparen => simp [unaryCtx]
  · intro s
    cases s <;> simp [prec, rightAssoc]

/-- C5: a binary `/` step whose right operand (stack top) is zero fails
with `DivisionByZero` before dividing, whatever follows; in particular
`evaluate "5/0"` fails with `DivisionByZero`. -/
theorem C5_division_by_zero :
    (∀ rest st a, evalRpnAux (Token.op .divide :: rest) (.fin 0 :: a :: st) =
      .error .DivisionByZero) ∧
    evaluate "5/0" = .error .DivisionByZero :=
  ⟨fun _ _ _ => rfl, by decide⟩

/-- C6: both unbalanced-parenthesis cases fail with
`MismatchedParentheses`: a `)` that empties the operator stack without
meeting `(`, and a `(` left on the stack at end of input; in particular
`evaluate "(1+2"` and `evaluate "1+2)"` both fail so. -/
theorem C6_mismatched_parentheses :
    (∀ out, popUntilLParen out [] = .error .MismatchedParentheses) ∧
    (∀ out rest, drain out (Token.lparen :: rest) =
      .error .MismatchedParentheses) ∧
    evaluate "(1+2" = .error .MismatchedParentheses ∧
    evaluate "1+2)" = .error .MismatchedParentheses :=
  ⟨fun _ => rfl, fun _ _ => rfl, by decide, by decide⟩

/-- C9: the division-by-zero guard also fires on a negated zero: unary
minus maps zero to zero (IEEE `-0 === 0`), so a division step whose
right operand is the result of negating zero fails with
`DivisionByZero`; in particular evaluating 5 divided by the literal -0
fails with `DivisionByZero` rather than producing negative infinity. -/
theorem C9_negative_zero_guard :
    FVal.neg (.fin 0) = .fin 0 ∧
    (∀ rest st a, evalRpnAux (Token.op .uminus :: Token.op .divide :: rest)
      (.fin 0 :: .fin a :: st) = .error .DivisionByZero) ∧
    evaluate "5/-0" = .error .DivisionByZero :=
  ⟨by decide, fun _ _ _ => rfl, by decide⟩

/-- C7: a whitespace-only input (the empty string included) strips to an
empty character list, tokenizes to an empty token sequence, and
`evaluate` returns 0 without failing. -/
theorem C7_whitespace_zero :
    evaluate "" = .ok (.fin 0) ∧
    (∀ s : String, s.data.all isJsWs = true → evaluate s = .ok (.fin 0)) := by
  refine ⟨by decide, ?_⟩
  intro s h
  have hfilter : s.data.filter (fun c => !isJsWs c) = [] := by
    apply List.filter_eq_nil_iff.mpr
    intro c hc
    have := List.all_eq_true.mp h c hc
    simp [this]
  simp [evaluate, tokenize, hfilter, tokenizeAux]

/-- Witness for C7: a three-space input evaluates to 0. -/
theorem C7_witness : evaluate "   " = .ok (.fin 0) :=
  C7_whitespace_zero.2 "   " (by decide)

/-- Negating a finite value yields a finite value (IEEE negation flips
the sign bit and cannot overflow). -/
theorem FVal.isFinite_neg {a : FVal} (h : a.isFinite = true) :
    a.neg.isFinite = true := by
  cases a with
  | fin q => rfl
  | nonfin => cases h

/-- `numsFinite` distributes over append. -/
theorem numsFinite_append {l1 l2 : List Token} :
    numsFinite (l1 ++ l2) ↔ numsFinite l1 ∧ numsFinite l2 := by
  unfold numsFinite
  constructor
  · intro h
    exact ⟨fun v hv => h v (List.mem_append_left _ hv),
      fun v hv => h v (List.mem_append_right _ hv)⟩
  · rintro ⟨h1, h2⟩ v hv
    rcases List.mem_append.mp hv with hm | hm
    · exact h1 v hm
    · exact h2 v hm

/-- `numsFinite` on a cons. -/
theorem numsFinite_cons {t : Token} {l : List Token} :
    numsFinite (t :: l) ↔
      (∀ v, t = Token.num v → v.isFinite = true) ∧ numsFinite l := by
  unfold numsFinite
  constructor
  · intro h
    constructor
    · intro v hv
      subst hv
      exact h v (List.mem_cons_self _ _)
    · exact fun v hv => h v (List.mem_cons_of_mem _ hv)
  · rintro ⟨h1, h2⟩ v hv
    rcases List.mem_cons.mp hv with hm | hm
    · exact h1 v hm.symm
    · exact h2 v hm

/-- The empty token list trivially satisfies `numsFinite`. -/
theorem numsFinite_nil : numsFinite [] := by
  intro v hv
  simp at hv

/-- A token that is not a `num` can be consed onto any `numsFinite`
list. -/
theorem numsFinite_cons_op {s : OpSym} {l : List Token} (h : numsFinite l) :
    numsFinite (Token.op s :: l) :=
  numsFinite_cons.mpr ⟨fun _ hv => Token.noConfusion hv, h⟩

/-- Every `tokenize` scan produces only finite `num` tokens (the
`NumberTooLarge` check guards every literal). -/
theorem tokenizeAux_numsFinite :
    ∀ fuel l toks, tokenizeAux fuel l = .ok toks → numsFinite toks := by
  intro fuel
  induction fuel with
  | zero =>
    intro l toks h
    cases l with
    | nil =>
      simp [tokenizeAux] at h
      subst h
      exact numsFinite_nil
    | cons c rest => simp [tokenizeAux] at h
  | succ fuel ih =>
    intro l toks h
    cases l with
    | nil =>
      simp [tokenizeAux] at h
      subst h
      exact numsFinite_nil
    | cons ch rest =>
      simp only [tokenizeAux] at h
      by_cases hnum : isNumChar ch = true
      · rw [if_pos hnum] at h
        by_cases hval : (!validNumRun (ch :: rest.takeWhile isNumChar)) = true
        · rw [if_pos hval] at h
          cases h
        · rw [if_neg hval] at h
          by_cases hfin :
              (!(numValue (ch :: rest.takeWhile isNumChar)).isFinite) = true
          · rw [if_pos hfin] at h
            cases h
          · rw [if_neg hfin] at h
            cases htk : tokenizeAux fuel (rest.dropWhile isNumChar) with
            | error e => rw [htk] at h; cases h
            | ok ts =>
              rw [htk] at h
              injection h with h
              subst h
              refine numsFinite_cons.mpr ⟨?_, ih _ _ htk⟩
              intro v hv
              injection hv with hv
              subst hv
              simpa using hfin
      · rw [if_neg hnum] at h
        by_cases hlp : (ch == '(') = true
        · rw [if_pos hlp] at h
          cases htk : tokenizeAux fuel rest with
          | error e => rw [htk] at h; cases h
          | ok ts =>
            rw [htk] at h
            injection h with h
            subst h
            exact numsFinite_cons.mpr ⟨fun v hv => Token.noConfusion hv, ih _ _ htk⟩
        · rw [if_neg hlp] at h
          by_cases hrp : (ch == ')') = true
          · rw [if_pos hrp] at h
            cases htk : tokenizeAux fuel rest with
            | error e => rw [htk] at h; cases h
            | ok ts =>
              rw [htk] at h
              injection h with h
              subst h
              exact numsFinite_cons.mpr ⟨fun v hv => Token.noConfusion hv, ih _ _ htk⟩
          · rw [if_neg hrp] at h
            by_cases hop : isOperator ch = true
            · rw [if_pos hop] at h
              cases htk : tokenizeAux fuel rest with
              | error e => rw [htk] at h; cases h
              | ok ts =>
                rw [htk] at h
                injection h with h
                subst h
                exact numsFinite_cons.mpr ⟨fun v hv => Token.noConfusion hv, ih _ _ htk⟩
            · rw [if_neg hop] at h
              cases h

/-- `tokenize` produces only finite `num` tokens. -/
theorem tokenize_numsFinite {s : String} {toks : List Token}
    (h : tokenize s = .ok toks) : numsFinite toks :=
  tokenizeAux_numsFinite _ _ _ h

/-- The pop loop of `pushOp` preserves `numsFinite` of both the output
and the stack. -/
theorem pushOpAux_numsFinite (a : OpSym) :
    ∀ ops out, numsFinite out → numsFinite ops →
      numsFinite (pushOpAux a out ops).1 ∧ numsFinite (pushOpAux a out ops).2 := by
  intro ops
  induction ops with
  | nil =>
    intro out ho hp
    exact ⟨ho, hp⟩
  | cons t rest ih =>
    intro out ho hp
    cases t with
    | op b =>
      simp only [pushOpAux]
      split
      · exact ih (out ++ [.op b])
          (numsFinite_append.mpr ⟨ho, numsFinite_cons_op numsFinite_nil⟩)
          (numsFinite_cons.mp hp).2
      · exact ⟨ho, hp⟩
    | num v => exact ⟨ho, hp⟩
    | lparen => exact ⟨ho, hp⟩
    | rparen => exact ⟨ho, hp⟩

/-- `pushOp` preserves `numsFinite` of both the output and the stack. -/
theorem pushOp_numsFinite (a : OpSym) (out ops : List Token)
    (ho : numsFinite out) (hp : numsFinite ops) :
    numsFinite (pushOp a out ops).1 ∧ numsFinite (pushOp a out ops).2 := by
  have h := pushOpAux_numsFinite a ops out ho hp
  unfold pushOp
  rcases hx : pushOpAux a out ops with ⟨o, p⟩
  rw [hx] at h
  exact ⟨h.1, numsFinite_cons_op h.2⟩

/-- The close-parenthesis pop loop preserves `numsFinite`. -/
theorem popUntilLParen_numsFinite :
    ∀ ops out o p, numsFinite out → numsFinite ops →
      popUntilLParen out ops = .ok (o, p) → numsFinite o ∧ numsFinite p := by
  intro ops
  induction ops with
  | nil =>
    intro out o p ho hp h
    cases h
  | cons t rest ih =>
    intro out o p ho hp h
    cases t with
    | lparen =>
      simp only [popUntilLParen] at h
      injection h with h
      injection h with h1 h2
      subst h1
      subst h2
      exact ⟨ho, (numsFinite_cons.mp hp).2⟩
    | num v =>
      simp only [popUntilLParen] at h
      refine ih (out ++ [.num v]) o p ?_ (numsFinite_cons.mp hp).2 h
      refine numsFinite_append.mpr ⟨ho, numsFinite_cons.mpr ⟨?_, numsFinite_nil⟩⟩
      intro w hw
      cases hw
      exact (numsFinite_cons.mp hp).1 _ rfl
    | op s =>
      simp only [popUntilLParen] at h
      exact ih (out ++ [.op s]) o p
        (numsFinite_append.mpr ⟨ho, numsFinite_cons_op numsFinite_nil⟩)
        (numsFinite_cons.mp hp).2 h
    | rparen =>
      simp only [popUntilLParen] at h
      refine ih (out ++ [.rparen]) o p ?_ (numsFinite_cons.mp hp).2 h
      exact numsFinite_append.mpr
        ⟨ho, numsFinite_cons.mpr ⟨fun v hv => Token.noConfusion hv, numsFinite_nil⟩⟩

/-- The end-of-input drain preserves `numsFinite`. -/
theorem drain_numsFinite :
    ∀ ops out rpn, numsFinite out → numsFinite ops →
      drain out ops = .ok rpn → numsFinite rpn := by
  intro ops
  induction ops with
  | nil =>
    intro out rpn ho hp h
    injection h with h
    subst h
    exact ho
  | cons t rest ih =>
    intro out rpn ho hp h
    cases t with
    | lparen => cases h
    | num v =>
      simp only [drain] at h
      refine ih (out ++ [.num v]) rpn ?_ (numsFinite_cons.mp hp).2 h
      refine numsFinite_append.mpr ⟨ho, numsFinite_cons.mpr ⟨?_, numsFinite_nil⟩⟩
      intro w hw
      cases hw
      exact (numsFinite_cons.mp hp).1 _ rfl
    | op s =>
      simp only [drain] at h
      exact ih (out ++ [.op s]) rpn
        (numsFinite_append.mpr ⟨ho, numsFinite_cons_op numsFinite_nil⟩)
        (numsFinite_cons.mp hp).2 h
    | rparen =>
      simp only [drain] at h
      refine ih (out ++ [.rparen]) rpn ?_ (numsFinite_cons.mp hp).2 h
      exact numsFinite_append.mpr
        ⟨ho, numsFinite_cons.mpr ⟨fun v hv => Token.noConfusion hv, numsFinite_nil⟩⟩

/-- The shunting-yard loop only moves tokens between the three
sequences (replacing unary operator symbols), so an all-finite input
with all-finite output/stack accumulators yields an all-finite postfix
sequence. -/
theorem toRpnAux_numsFinite :
    ∀ toks prev out ops rpn, numsFinite toks → numsFinite out →
      numsFinite ops → toRpnAux toks prev out ops = .ok rpn →
      numsFinite rpn := by
  intro toks
  induction toks with
  | nil =>
    intro prev out ops rpn ht ho hp h
    exact drain_numsFinite ops out rpn ho hp h
  | cons t rest ih =>
    intro prev out ops rpn ht ho hp h
    have htrest : numsFinite rest := (numsFinite_cons.mp ht).2
    cases t with
    | num v =>
      simp only [toRpnAux] at h
      refine ih (some (.num v)) (out ++ [.num v]) ops rpn htrest ?_ hp h
      refine numsFinite_append.mpr ⟨ho, numsFinite_cons.mpr ⟨?_, numsFinite_nil⟩⟩
      intro w hw
      cases hw
      exact (numsFinite_cons.mp ht).1 _ rfl
    | lparen =>
      simp only [toRpnAux] at h
      exact ih (some .lparen) out (.lparen :: ops) rpn htrest ho
        (numsFinite_cons.mpr ⟨fun v hv => Token.noConfusion hv, hp⟩) h
    | rparen =>
      simp only [toRpnAux] at h
      cases hx : popUntilLParen out ops with
      | error e => rw [hx] at h; cases h
      | ok op' =>
        rcases op' with ⟨o, p⟩
        rw [hx] at h
        obtain ⟨ho', hp'⟩ := popUntilLParen_numsFinite ops out o p ho hp hx
        exact ih (some .rparen) o p rpn htrest ho' hp' h
    | op v =>
      simp only [toRpnAux] at h
      split at h
      · rcases hx : pushOp (if v == OpSym.plus then .uplus else .uminus) out ops
          with ⟨o, p⟩
        rw [hx] at h
        have hop := pushOp_numsFinite
          (if v == OpSym.plus then .uplus else .uminus) out ops ho hp
        rw [hx] at hop
        exact ih (some (.op v)) o p rpn htrest hop.1 hop.2 h
      · rcases hx : pushOp v out ops with ⟨o, p⟩
        rw [hx] at h
        have hop := pushOp_numsFinite v out ops ho hp
        rw [hx] at hop
        exact ih (some (.op v)) o p rpn htrest hop.1 hop.2 h

/-- `toRpn` of an all-finite token sequence is an all-finite postfix
sequence. -/
theorem toRpn_numsFinite {toks rpn : List Token} (ht : numsFinite toks)
    (h : toRpn toks = .ok rpn) : numsFinite rpn :=
  toRpnAux_numsFinite toks none [] [] rpn ht numsFinite_nil numsFinite_nil h

/-- Postfix evaluation over a stack of finite values with all-finite
`num` tokens only ever pushes finite values — binary results are guarded
by the `ResultNotFinite` check, unary results by the fact that negation
preserves finiteness — and so returns a finite value. -/
theorem evalRpnAux_finite :
    ∀ toks st v, numsFinite toks → (∀ x ∈ st, x.isFinite = true) →
      evalRpnAux toks st = .ok v → v.isFinite = true := by
  intro toks
  induction toks with
  | nil =>
    intro st v hn hst h
    cases st with
    | nil => cases h
    | cons a st' =>
      cases st' with
      | nil =>
        injection h with h
        subst h
        exact hst _ (List.mem_cons_self _ _)
      | cons b st'' => cases h
  | cons t rest ih =>
    intro st v hn hst h
    have hnrest : numsFinite rest := (numsFinite_cons.mp hn).2
    cases t with
    | num w =>
      simp only [evalRpnAux] at h
      refine ih (w :: st) v hnrest ?_ h
      intro x hx
      rcases List.mem_cons.mp hx with hm | hm
      · subst hm
        exact (numsFinite_cons.mp hn).1 _ rfl
      · exact hst x hm
    | lparen => cases h
    | rparen => cases h
    | op s =>
      simp only [evalRpnAux] at h
      by_cases hu : (s == OpSym.uplus || s == OpSym.uminus) = true
      · rw [if_pos hu] at h
        cases st with
        | nil => cases h
        | cons a st' =>
          refine ih _ v hnrest ?_ h
          intro x hx
          rcases List.mem_cons.mp hx with hm | hm
          · subst hm
            have ha : a.isFinite = true := hst a (List.mem_cons_self _ _)
            by_cases hm2 : (s == OpSym.uminus) = true
            · rw [if_pos hm2]
              exact FVal.isFinite_neg ha
            · rw [if_neg hm2]
              exact ha
          · exact hst x (List.mem_cons_of_mem _ hm)
      · rw [if_neg hu] at h
        cases st with
        | nil => cases h
        | cons b st0 =>
          cases st0 with
          | nil => cases h
          | cons a st' =>
            have h2 : (match applyBin s a b with
                | Except.error e => Except.error e
                | Except.ok w =>
                  if (!w.isFinite) = true then Except.error Err.ResultNotFinite
                  else evalRpnAux rest (w :: st')) = Except.ok v := h
            cases hab : applyBin s a b with
            | error e => rw [hab] at h2; cases h2
            | ok w =>
              rw [hab] at h2
              have h3 : (if (!w.isFinite) = true then
                    Except.error Err.ResultNotFinite
                  else evalRpnAux rest (w :: st')) = Except.ok v := h2
              by_cases hw : (!w.isFinite) = true
              · rw [if_pos hw] at h3
                cases h3
              · rw [if_neg hw] at h3
                refine ih (w :: st') v hnrest ?_ h3
                intro x hx
                rcases List.mem_cons.mp hx with hm | hm
                · subst hm
                  simpa using hw
                · exact hst x (List.mem_cons_of_mem _ (List.mem_cons_of_mem _ hm))

/-- C4: every value the postfix evaluator pushes or returns is finite —
given all-finite `num` tokens and an all-finite stack, `evalRpnAux`
can only return a finite value (the unary branch included, since
negation preserves finiteness) — and consequently whenever `evaluate`
returns a number, that number is finite. -/
theorem C4_finiteness_invariant :
    (∀ toks st v, numsFinite toks → (∀ x ∈ st, x.isFinite = true) →
      evalRpnAux toks st = .ok v → v.isFinite = true) ∧
    (∀ s v, evaluate s = .ok v → v.isFinite = true) := by
  refine ⟨evalRpnAux_finite, ?_⟩
  intro s v h
  unfold evaluate at h
  cases htk : tokenize s with
  | error e => rw [htk] at h; cases h
  | ok toks =>
    rw [htk] at h
    have h2 : (if toks.isEmpty = true then Except.ok (FVal.fin 0)
        else match toRpn toks with
          | Except.error e => Except.error e
          | Except.ok rpn => evalRpn rpn) = Except.ok v := h
    by_cases he : toks.isEmpty = true
    · rw [if_pos he] at h2
      injection h2 with h2
      subst h2
      rfl
    · rw [if_neg he] at h2
      cases hrp : toRpn toks with
      | error e => rw [hrp] at h2; cases h2
      | ok rpn =>
        rw [hrp] at h2
        have hn := tokenize_numsFinite htk
        have hr := toRpn_numsFinite hn hrp
        exact evalRpnAux_finite rpn [] v hr (fun x hx => by cases hx) h2

/-- Witness for C4: the invariant applied to the result of
`evaluate "2+3*4"`. -/
theorem C4_witness : (FVal.fin 14).isFinite = true :=
  C4_finiteness_invariant.2 "2+3*4" (.fin 14) (by decide)

/-- C10: the balanced but empty input `"()"` converts to an empty
postfix sequence, and evaluation then fails with `InvalidExpression`
(final stack size ≠ 1), not `MismatchedParentheses`. -/
theorem C10_empty_parens :
    toRpn [Token.lparen, Token.rparen] = .ok [] ∧
    evaluate "()" = .error .InvalidExpression :=
  ⟨by decide, by decide⟩

end Calc
